import Mathlib

/-!
Shallow embedding of the tabular transform pipeline `processData` from
`src/backend/routes/analytics.js` (lines 18-133).

Modelling conventions:
* JavaScript numbers are modelled as exact rationals (`ℚ`).  None of the
  properties verified here depends on binary floating-point rounding; all
  concrete values appearing in theorems are small integers or terminating
  decimals, where JS float arithmetic is exact.
* `NaN` is a separate constructor (`Val.nan`); numeric coercion returns
  `Option ℚ`, with `none` playing the role of NaN (JS filters it with
  `isNaN`, comparisons with NaN are false, `==` with NaN is false).
* `Math.sqrt` of a non-perfect-square rational is irrational, hence not a
  rational; the `std_dev` aggregate stores such a result symbolically as
  `Val.sqrtv q` (meaning "the square root of q").  Perfect squares are
  evaluated exactly.  `Val.sqrtv` only ever arises as an aggregation
  OUTPUT; the pipeline never feeds aggregation outputs back into numeric
  coercion or string conversion (filters and grouping run before the
  aggregate stage), so the `toNum`/`toStr` cases for it are unreachable
  from `processData` and are marked below.
* JS object cell values reachable here (spreadsheet rows parsed by xlsx,
  JSON request bodies) are strings, numbers, booleans, null, or absent
  (`undefined`); `Val` covers exactly these plus the two output-only
  constructors above.
-/

/-- A JavaScript scalar value as it occurs in a row cell or a filter value. -/
inductive Val where
  | str (s : String)
  | num (q : ℚ)
  | bool (b : Bool)
  | null
  | undef
  | nan
  | sqrtv (q : ℚ)
deriving DecidableEq, Repr

/-- A row: a JS object, modelled as an association list with unique keys
(JS objects cannot hold a key twice); `rget` returns the first binding. -/
abbrev Row := List (String × Val)

/-- Lookup `row[k]`: property lookup; a missing key yields `undefined`. -/
def rget : Row → String → Val
  | [], _ => .undef
  | (k', v) :: t, k => if k' = k then v else rget t k

/-- Assignment `row[k] = v`: property assignment; overwrites in place if the key
exists (keeping its position), otherwise appends the new key at the end —
exactly JS object property creation order. -/
def rset : Row → String → Val → Row
  | [], k, v => [(k, v)]
  | (k', v') :: t, k, v => if k' = k then (k, v) :: t else (k', v') :: rset t k v

/-- The keys of a row, in property order. -/
def rkeys (r : Row) : List String := r.map Prod.fst

/-- Digit list to natural number (used by the decimal-string parser). -/
def digitsVal (l : List Char) : ℕ :=
  l.foldl (fun a c => a * 10 + (c.toNat - 48)) 0

/-- JS `Number(string)` for a decimal string literal: optional sign, integer
part, optional fraction, optional exponent.  Returns `none` for NaN.
Faithful to JS `ToNumber` on the decimal fragment; the exotic forms
(hexadecimal, binary, `Infinity`) are not modelled, and whitespace
trimming covers the ASCII whitespace characters — no claim, witness or
counterexample in this file evaluates the parser on such a string. -/
def trimChars (l : List Char) : List Char :=
  ((l.dropWhile Char.isWhitespace).reverse.dropWhile Char.isWhitespace).reverse

def parseNum (s : String) : Option ℚ :=
  let t := trimChars s.toList
  if t.isEmpty then some 0
  else
    let cs := t
    let signDone : Bool × List Char :=
      match cs with
      | '-' :: r => (true, r)
      | '+' :: r => (false, r)
      | _ => (false, cs)
    let neg := signDone.1
    let cs1 := signDone.2
    let ip := cs1.takeWhile Char.isDigit
    let cs2 := cs1.drop ip.length
    let fracDone : List Char × List Char :=
      match cs2 with
      | '.' :: r => (r.takeWhile Char.isDigit, r.drop (r.takeWhile Char.isDigit).length)
      | _ => ([], cs2)
    let fp := fracDone.1
    let cs3 := fracDone.2
    if ip.isEmpty && fp.isEmpty then none
    else
      let mantissa : ℚ :=
        (digitsVal ip : ℚ) + (digitsVal fp : ℚ) / ((10 : ℚ) ^ fp.length)
      let signed : ℚ := if neg then -mantissa else mantissa
      match cs3 with
      | [] => some signed
      | e :: r =>
        if e = 'e' ∨ e = 'E' then
          let expDone : Bool × List Char :=
            match r with
            | '-' :: r2 => (true, r2)
            | '+' :: r2 => (false, r2)
            | _ => (false, r)
          let ed := expDone.2.takeWhile Char.isDigit
          let rest := expDone.2.drop ed.length
          if ed.isEmpty ∨ ¬ rest.isEmpty then none
          else
            let ex : ℤ := if expDone.1 then -(digitsVal ed : ℤ) else (digitsVal ed : ℤ)
            some (signed * (10 : ℚ) ^ ex)
        else none

/-- JS `ToNumber(bool)`. -/
def bNum (b : Bool) : ℚ := if b then 1 else 0

/-- JS `Number(v)` with `none` as NaN.  `Number(null)` is `0`,
`Number(undefined)` is NaN — the asymmetry at the heart of claim C3.
The `sqrtv` case is unreachable from `processData` (aggregation outputs
are never re-coerced); it is mapped to `none` as a closed-off default. -/
def toNum : Val → Option ℚ
  | .str s => parseNum s
  | .num q => some q
  | .bool b => some (bNum b)
  | .null => some 0
  | .undef => none
  | .nan => none
  | .sqrtv _ => none

/-- Strip all factors `p` from `d` (fuelled structural recursion; the
fuel `d` is ample since each step at least halves `d`). -/
def stripFacAux : ℕ → ℕ → ℕ → ℕ × ℕ
  | 0, _, d => (0, d)
  | fuel + 1, p, d =>
    if 2 ≤ p ∧ 2 ≤ d ∧ d % p = 0 then
      let r := stripFacAux fuel p (d / p)
      (r.1 + 1, r.2)
    else (0, d)

/-- Strip all factors `p` from `d`, returning (multiplicity, cofactor). -/
def stripFac (p : ℕ) (d : ℕ) : ℕ × ℕ := stripFacAux d p d

/-- JS `String(number)` for a rational.  Integers and terminating decimals
(denominator `2^a * 5^b`) are rendered exactly, matching JS shortest
round-trip output on such values (`0.5`, `-3.25`, ...).  A rational with a
non-terminating decimal expansion has no finite decimal string; it is
rendered as a fraction marker — such values never reach `String()` in any
theorem of this file.  JS switches to exponent notation beyond `1e21`,
also never reached here. -/
def numToStr (q : ℚ) : String :=
  if q.den = 1 then toString q.num
  else
    let s2 := stripFac 2 q.den
    let s5 := stripFac 5 s2.2
    if s5.2 = 1 then
      let k := max s2.1 s5.1
      let m := q.num.natAbs * 10 ^ k / q.den
      let ds := (toString m).toList
      let ds := if ds.length ≤ k then List.replicate (k + 1 - ds.length) '0' ++ ds else ds
      let ipart := ds.take (ds.length - k)
      let fpart := ds.drop (ds.length - k)
      (if q.num < 0 then "-" else "") ++ String.mk ipart ++ "." ++ String.mk fpart
    else (if q.num < 0 then "-" else "") ++ toString q.num.natAbs ++ "/" ++ toString q.den

/-- JS `String(v)`.  The `sqrtv` case is unreachable from `processData`
(string conversion happens in the filter and grouping stages, both of
which run before any aggregate is produced). -/
def toStr : Val → String
  | .str s => s
  | .num q => numToStr q
  | .bool b => if b then "true" else "false"
  | .null => "null"
  | .undef => "undefined"
  | .nan => "NaN"
  | .sqrtv q => "sqrt " ++ numToStr q

/-- The numeric domain for JS relational comparison: either an exact
rational or the (possibly irrational) square root of a non-negative
rational, `std_dev`'s symbolic output. -/
inductive NumV where
  | q (a : ℚ)
  | sq (a : ℚ)
deriving DecidableEq, Repr

/-- JS `ToNumber` into the comparison domain (`none` = NaN). -/
def toNumV : Val → Option NumV
  | .str s => (parseNum s).map NumV.q
  | .num a => some (.q a)
  | .bool b => some (.q (bNum b))
  | .null => some (.q 0)
  | .undef => none
  | .nan => none
  | .sqrtv a => some (.sq a)

/-- Strict less-than on the comparison domain.  `sq a` stands for `√a`
with `a ≥ 0` (the only way the pipeline builds it); the inequalities are
the exact characterisations `b < √a ↔ b < 0 ∨ b² < a` and
`√a < b ↔ 0 ≤ b ∧ a < b²` for `a ≥ 0`. -/
def numVLt : NumV → NumV → Bool
  | .q a, .q b => a < b
  | .q a, .sq b => a < 0 || a * a < b
  | .sq a, .q b => 0 ≤ b && a < b * b
  | .sq a, .sq b => a < b

/-- Lexicographic comparison of character lists: first differing
character decides, a proper prefix sorts first — JS string `<` (JS
compares UTF-16 code units, Lean code points; they agree on all strings
in this development). -/
def charListLt : List Char → List Char → Bool
  | _, [] => false
  | [], _ :: _ => true
  | a :: as, b :: bs => a < b || (a = b && charListLt as bs)

/-- The numeric half of the relational comparison: false whenever either
side is NaN. -/
def optNumVLt : Option NumV → Option NumV → Bool
  | some x, some y => numVLt x y
  | _, _ => false

/-- JS `a < b` (abstract relational comparison): two strings compare
lexicographically, otherwise both sides are coerced to numbers and any
NaN makes the comparison false.  (Lean compares strings by code point, JS
by UTF-16 code unit; they agree on all strings in this development.)
JS `a > b` is exactly `jsLt b a`. -/
def jsLt (a b : Val) : Bool :=
  match a, b with
  | .str x, .str y => charListLt x.toList y.toList
  | _, _ => optNumVLt (toNumV a) (toNumV b)

/-- Number-against-value half of JS loose equality `==`:
`a == v` where `a` is a number. -/
def numEqVal (a : ℚ) : Val → Bool
  | .num b => a == b
  | .str s => parseNum s == some a
  | .bool b => a == bNum b
  | .null => false
  | .undef => false
  | .nan => false
  | .sqrtv q => 0 ≤ a && a * a == q

/-- JS loose equality `==` on scalars: `null` and `undefined` equal each
other and nothing else; NaN equals nothing; a boolean is coerced to a
number; number-vs-string coerces the string.  (Claim C2's spec text
asserts this relation is what `in`/`not_in` membership uses; the source
actually uses `Array.includes`, i.e. `svz` below.) -/
def looseEq : Val → Val → Bool
  | .null, .null => true
  | .null, .undef => true
  | .undef, .null => true
  | .undef, .undef => true
  | .null, _ => false
  | .undef, _ => false
  | _, .null => false
  | _, .undef => false
  | .nan, _ => false
  | _, .nan => false
  | .str a, .str b => a == b
  | .num a, v => numEqVal a v
  | v, .num a => numEqVal a v
  | .bool a, v => numEqVal (bNum a) v
  | v, .bool a => numEqVal (bNum a) v
  | .sqrtv p, .sqrtv q => p == q
  | .str s, .sqrtv q => (parseNum s).any (fun a => 0 ≤ a && a * a == q)
  | .sqrtv q, .str s => (parseNum s).any (fun a => 0 ≤ a && a * a == q)

/-- SameValueZero, the equality used by `Array.prototype.includes`: same
type and same value, with NaN equal to NaN.  On this value type it is
structural equality (the `sqrtv`-vs-`num` case compares the represented
numbers; a constructed `sqrtv` is never a perfect square, so structural
inequality is faithful there too). -/
def svz : Val → Val → Bool
  | .sqrtv p, .num a => 0 ≤ a && a * a == p
  | .num a, .sqrtv p => 0 ≤ a && a * a == p
  | a, b => a == b

/-- A filter's `value` field: a scalar or an array of scalars. -/
inductive FVal where
  | scalar (v : Val)
  | list (vs : List Val)
deriving DecidableEq, Repr

/-- JS `Array.prototype.join(",")` / `ToPrimitive` of an array: elements
stringified, `null`/`undefined` as empty, joined with commas. -/
def arrJoin (vs : List Val) : String :=
  String.intercalate "," (vs.map fun v =>
    match v with
    | .null => ""
    | .undef => ""
    | w => toStr w)

/-- Indexing `value[i]`.  Indexing a string yields its i-th character; indexing a
number/boolean yields `undefined`.  Real JS throws a TypeError when
indexing `null`/`undefined`; that case is unreachable in every theorem,
witness and counterexample below (none evaluates `between` on a
null/undefined filter value), and is mapped to `undefined` to keep the
embedding total. -/
def fvIdx (fv : FVal) (i : ℕ) : Val :=
  match fv with
  | .list vs => (vs.get? i).getD .undef
  | .scalar (.str s) => ((s.toList.get? i).map fun c => Val.str (String.mk [c])).getD .undef
  | .scalar _ => (.undef)

/-- JS `Number(value)` for a filter value: an array coerces through its
comma-joined string form (`Number([5]) = 5`, `Number([]) = 0`,
`Number([1,2]) = NaN`). -/
def fvToNumV (fv : FVal) : Option NumV :=
  match fv with
  | .scalar v => toNumV v
  | .list vs => (parseNum (arrJoin vs)).map NumV.q

/-- JS `String(value)` for a filter value. -/
def fvToStr (fv : FVal) : String :=
  match fv with
  | .scalar v => toStr v
  | .list vs => arrJoin vs

/-- Loose equality between a cell value and a filter value:
`undefined`/`null` never loosely equal an object; any other scalar
compares against the array's string form. -/
def looseEqFV (cell : Val) (fv : FVal) : Bool :=
  match fv with
  | .scalar v => looseEq cell v
  | .list vs =>
    match cell with
    | .null => false
    | .undef => false
    | c => looseEq c (.str (arrJoin vs))

/-- ASCII lower-casing (JS `toLowerCase`; full-Unicode case mapping is
not modelled, no claim exercises it). -/
def lowerStr (s : String) : String := String.mk (s.toList.map Char.toLower)

/-- Is `n` a contiguous sublist of `h`?  (`String.includes` on the
character lists.) -/
def listInfix (n : List Char) : List Char → Bool
  | [] => n.isEmpty
  | a :: t => n.isPrefixOf (a :: t) || listInfix n t

/-- One filter clause `{ column, operator, value }`.  The operator is an
arbitrary string, as in the source's `switch`. -/
structure FilterSpec where
  column : String
  operator : String
  value : FVal
deriving DecidableEq, Repr

/-- Comparison `a <= b` on the numeric comparison domain (both non-NaN). -/
def numVLe (a b : NumV) : Bool := !(numVLt b a)

/-- The filter predicate: the `switch (operator)` of `processData`
(analytics.js lines 28-49), one branch per recognised operator, with the
`default: return true` fall-through. -/
def filterPred (f : FilterSpec) (r : Row) : Bool :=
  let cellValue := rget r f.column
  if f.operator = "equals" then looseEqFV cellValue f.value
  else if f.operator = "not_equals" then !(looseEqFV cellValue f.value)
  else if f.operator = "contains" then
    listInfix ((lowerStr (fvToStr f.value)).toList) ((lowerStr (toStr cellValue)).toList)
  else if f.operator = "not_contains" then
    !(listInfix ((lowerStr (fvToStr f.value)).toList) ((lowerStr (toStr cellValue)).toList))
  else if f.operator = "greater_than" then
    match toNumV cellValue, fvToNumV f.value with
    | some a, some b => numVLt b a
    | _, _ => false
  else if f.operator = "less_than" then
    match toNumV cellValue, fvToNumV f.value with
    | some a, some b => numVLt a b
    | _, _ => false
  else if f.operator = "between" then
    match toNumV cellValue, toNumV (fvIdx f.value 0), toNumV (fvIdx f.value 1) with
    | some a, some lo, some hi => numVLe lo a && numVLe a hi
    | _, _, _ => false
  else if f.operator = "in" then
    match f.value with
    | .list vs => vs.any (fun x => svz x cellValue)
    | .scalar _ => false
  else if f.operator = "not_in" then
    match f.value with
    | .list vs => !(vs.any (fun x => svz x cellValue))
    | .scalar _ => false
  else true

/-- The filter stage: `filters.forEach(filter => { processedData =
processedData.filter(...) })` — one full pass per filter, in order. -/
def filterStage (fs : List FilterSpec) (rows : List Row) : List Row :=
  fs.foldl (fun acc f => acc.filter (filterPred f)) rows

/-- One aggregation spec `{ column, function }`. -/
structure Agg where
  column : String
  function : String
deriving DecidableEq, Repr

/-- One sort spec `{ column, direction }`. -/
structure OrderSpec where
  column : String
  direction : String
deriving DecidableEq, Repr

/-- The `config.dataSelection` object.  An absent or empty array field is
modelled as `[]`: the source only tests `?.length > 0`, which is false
exactly when the field is absent or empty. -/
structure Config where
  filters : List FilterSpec := []
  groupBy : List String := []
  aggregations : List Agg := []
  orderBy : List OrderSpec := []
deriving Repr

/-- JS `Array.prototype.join` element conversion: `null` and `undefined`
become the empty string. -/
def joinToStr (v : Val) : String :=
  match v with
  | .null => ""
  | .undef => ""
  | w => toStr w

/-- The group key: `groupBy.map(col => row[col]).join('|')`. -/
def groupKey (gb : List String) (r : Row) : String :=
  String.intercalate "|" (gb.map fun c => joinToStr (rget r c))

/-- Append row `r` under key `k`: push onto the existing bucket, else
create a new bucket at the end (JS object insertion order). -/
def addToGroups (gs : List (String × List Row)) (k : String) (r : Row) :
    List (String × List Row) :=
  match gs with
  | [] => [(k, [r])]
  | (k', rs) :: t => if k' = k then (k', rs ++ [r]) :: t else (k', rs) :: addToGroups t k r

/-- The `grouped` object of `processData`: buckets in insertion order. -/
def buildGroups (gb : List String) (rows : List Row) : List (String × List Row) :=
  rows.foldl (fun gs r => addToGroups gs (groupKey gb r) r) []

/-- Is `s` a JS array-index property key: the canonical decimal string of
an integer `n` with `0 ≤ n < 2^32 - 1` (no sign, no leading zero)?  Such
keys are enumerated first by `Object.entries`, in ascending numeric
order. -/
def isArrayIndexKey (s : String) : Bool :=
  !s.toList.isEmpty && s.toList.all Char.isDigit
    && (s.toList.head? ≠ some '0' || s = "0")
    && digitsVal s.toList < 4294967295

/-- Numeric value of a digit key (0 on non-digit strings, unused there). -/
def keyNum (s : String) : ℤ := (digitsVal s.toList : ℤ)

/-- Stable insertion of `a` into `l` by a JS comparator: `a` goes before
the first element it compares strictly less than, hence after all
elements it ties with. -/
def insertC (cmp : α → α → Int) (a : α) : List α → List α
  | [] => [a]
  | b :: l => if cmp a b < 0 then a :: b :: l else b :: insertC cmp a l

/-- Stable comparator sort (processing the input left to right, each
element inserted after its ties).  For a consistent comparator this is
THE stable sort, hence exactly `Array.prototype.sort` as specified by
ECMAScript 2019 and implemented by V8; for an inconsistent comparator
ECMAScript leaves the order implementation-defined, and no theorem below
relies on this model there. -/
def jsSortBy (cmp : α → α → Int) (l : List α) : List α :=
  l.foldl (fun acc a => insertC cmp a acc) []

/-- JS `Object.entries` enumeration order: array-index keys first in
ascending numeric order, then the remaining string keys in insertion
order. -/
def jsEntries (gs : List (String × α)) : List (String × α) :=
  jsSortBy (fun p q => keyNum p.1 - keyNum q.1) (gs.filter fun p => isArrayIndexKey p.1)
    ++ gs.filter fun p => !isArrayIndexKey p.1

/-- Integer square root when exact (bounded search, structurally
recursive so that concrete goals evaluate in the kernel). -/
def natExactSqrt (n : ℕ) : Option ℕ :=
  (List.range (n + 1)).find? fun k => k * k = n

/-- Exact square root of a non-negative rational, when it exists. -/
def ratExactSqrt (q : ℚ) : Option ℚ :=
  if 0 ≤ q.num then
    match natExactSqrt q.num.toNat, natExactSqrt q.den with
    | some a, some b => some ((a : ℚ) / (b : ℚ))
    | _, _ => none
  else none

/-- JS `Math.sqrt`: NaN on negatives, exact on rational squares, symbolic
(`Val.sqrtv`) on the rest. -/
def jsSqrt (q : ℚ) : Val :=
  if q < 0 then .nan
  else
    match ratExactSqrt q with
    | some r => .num r
    | none => .sqrtv q

/-- Sum of a rational list by a left fold from 0 (`values.reduce((a, b)
=> a + b, 0)`). -/
def sumQ (vals : List ℚ) : ℚ := vals.foldl (· + ·) 0

/-- The `switch (aggFunc)` of `processData` (analytics.js lines 81-109)
applied to the coerced numeric values of a group.  `none` means the
function name is unrecognised and no field is assigned.

* `avg`/`min`/`max` guard the empty list explicitly (source ternaries).
* `median` of an empty list evaluates `(sorted[-1] + sorted[0]) / 2` =
  `(undefined + undefined) / 2` = NaN in JS.
* `std_dev` of an empty list divides by zero: `0/0` = NaN in JS.
* the `median` sort is `values.sort((a, b) => a - b)`, ascending. -/
def applyAgg (fn : String) (vals : List ℚ) : Option Val :=
  if fn = "sum" then some (.num (sumQ vals))
  else if fn = "avg" then
    some (.num (if vals.length > 0 then sumQ vals / vals.length else 0))
  else if fn = "count" then some (.num vals.length)
  else if fn = "min" then
    some (.num (if h : vals ≠ [] then vals.foldl min (vals.head h) else 0))
  else if fn = "max" then
    some (.num (if h : vals ≠ [] then vals.foldl max (vals.head h) else 0))
  else if fn = "median" then
    if vals.isEmpty then some .nan
    else
      let sorted := jsSortBy (fun a b => if a < b then -1 else if b < a then 1 else 0) vals
      let mid := sorted.length / 2
      some (.num (if sorted.length % 2 = 0 then
        (((sorted.get? (mid - 1)).getD 0) + ((sorted.get? mid).getD 0)) / 2
      else (sorted.get? mid).getD 0))
  else if fn = "std_dev" then
    if vals.isEmpty then some .nan
    else
      let mean := sumQ vals / vals.length
      let variance := sumQ (vals.map fun b => (b - mean) * (b - mean)) / vals.length
      some (jsSqrt variance)
  else none

/-- The coerced numeric values of column `c` over the rows of a group:
`rows.map(row => Number(row[column])).filter(val => !isNaN(val))`. -/
def coercedVals (c : String) (rows : List Row) : List ℚ :=
  rows.filterMap fun r => toNum (rget r c)

/-- Output field name `<column>_<function>`. -/
def aggName (a : Agg) : String := a.column ++ "_" ++ a.function

/-- Split `groupKey.split('|')` on the character list: JS
`String.prototype.split` with the one-character separator `'|'`
(`"".split('|')` is `[""]`, adjacent separators produce empty pieces). -/
def splitPipeChars : List Char → List (List Char)
  | [] => [[]]
  | c :: t =>
    if c = '|' then [] :: splitPipeChars t
    else
      match splitPipeChars t with
      | [] => [[c]]
      | h :: r => (c :: h) :: r

/-- JS `groupKey.split('|')`. -/
def splitPipe (s : String) : List String :=
  (splitPipeChars s.toList).map fun l => String.mk l

/-- Loop `groupBy.forEach((col, index) => result[col] =
groupKey.split('|')[index])`: assign each group-by column the i-th piece
of the re-split key string (always in range, since the key was joined
from `groupBy.length` pieces; kept total for arbitrary arguments). -/
def setCols (r : Row) (parts : List String) : List String → ℕ → Row
  | [], _ => r
  | c :: t, i =>
    setCols (rset r c (((parts.get? i).map Val.str).getD .undef)) parts t (i + 1)

/-- Loop `aggregations.forEach(agg => ...)`: assign `<column>_<function>` for
each recognised aggregation function, skip unrecognised ones. -/
def setAggs (r : Row) (rows : List Row) : List Agg → Row
  | [] => r
  | a :: t =>
    setAggs
      (match applyAgg a.function (coercedVals a.column rows) with
       | some v => rset r (aggName a) v
       | none => r)
      rows t

/-- The output record for one group (the body of the
`Object.entries(grouped).map` in `processData`).  The guard
`aggregations?.length > 0` in the source is redundant in this model: an
empty aggregation list assigns nothing either way. -/
def groupRecord (gb : List String) (aggs : List Agg) (k : String) (rows : List Row) : Row :=
  setAggs (setCols [] (splitPipe k) gb 0) rows aggs

/-- The group-and-aggregate stage: pass-through when `groupBy` is empty,
else one record per entry of the `grouped` object, in `Object.entries`
order. -/
def groupStage (gb : List String) (aggs : List Agg) (rows : List Row) : List Row :=
  if gb = [] then rows
  else (jsEntries (buildGroups gb rows)).map fun p => groupRecord gb aggs p.1 p.2

/-- One comparator step of the `orderBy` sort: `aVal < bVal` / `aVal >
bVal` with direction handling (any direction string other than `"asc"`
behaves as descending, as in the source's ternary). -/
def specCmp (s : OrderSpec) (a b : Row) : Int :=
  let av := rget a s.column
  let bv := rget b s.column
  if jsLt av bv then (if s.direction = "asc" then -1 else 1)
  else if jsLt bv av then (if s.direction = "asc" then 1 else -1)
  else 0

/-- The full comparator: first spec with a nonzero result decides. -/
def lexCmp (specs : List OrderSpec) (a b : Row) : Int :=
  match specs with
  | [] => 0
  | s :: rest => if specCmp s a b ≠ 0 then specCmp s a b else lexCmp rest a b

/-- The order stage: skipped for an empty `orderBy`, else a stable
comparator sort. -/
def orderStage (specs : List OrderSpec) (rows : List Row) : List Row :=
  if specs = [] then rows else jsSortBy (lexCmp specs) rows

/-- Driver `processData(rawData, config)`: filter, then group/aggregate, then
sort.  The initial `[...rawData]` copy is the identity on contents. -/
def processData (rawData : List Row) (config : Config) : List Row :=
  orderStage config.orderBy
    (groupStage config.groupBy config.aggregations
      (filterStage config.filters rawData))

/-- The distinct elements of a list, keeping first occurrences in order
of first appearance (the insertion order of the `grouped` object's
keys). -/
def firstSeen : List String → List String
  | [] => []
  | k :: t => k :: (firstSeen t).filter fun x => x ≠ k

/-- The `Object.entries` enumeration order on a list of distinct keys:
array-index keys first in ascending numeric order, then the rest in the
given (first-seen) order. -/
def jsKeyOrder (ks : List String) : List String :=
  jsSortBy (fun a b => keyNum a - keyNum b) (ks.filter fun k => isArrayIndexKey k)
    ++ ks.filter fun k => !isArrayIndexKey k


/-! ### Theorems

Batteries marks the `Rat` arithmetic operations `@[irreducible]`, which
blocks `decide`-style evaluation of concrete pipeline runs; restore
default reducibility locally for the proofs. -/

section ProofDevelopment

attribute [local semireducible] Rat.add Rat.mul Rat.inv Rat.sub Rat.ofScientific

/-! ### Basic stage lemmas -/

theorem filterStage_nil (fs : List FilterSpec) : filterStage fs [] = [] := by
  induction fs with
  | nil => rfl
  | cons f t ih =>
    simpa [filterStage, List.foldl_cons] using ih

theorem groupStage_nil (gb : List String) (aggs : List Agg) :
    groupStage gb aggs [] = [] := by
  unfold groupStage
  split
  · rfl
  · rfl

theorem orderStage_nil (specs : List OrderSpec) : orderStage specs [] = [] := by
  unfold orderStage
  split
  · rfl
  · rfl

/-- Claim C6 (confirmed, and without the claim's non-emptiness restriction):
the identity pipeline.  With every configuration section absent or empty,
`processData` returns its input rows unchanged in content and order. -/
theorem processData_identity (rows : List Row) : processData rows {} = rows := rfl

/-- Claim C7 (confirmed): for every configuration — filters, groupBy,
aggregations and orderBy all allowed to be set — `processData` on the
empty row sequence returns the empty sequence.  (It is a total function
into `List Row`, so it never returns null and raises no error.) -/
theorem processData_empty_input (config : Config) : processData [] config = [] := by
  unfold processData
  rw [filterStage_nil, groupStage_nil, orderStage_nil]

/-- Claim C8 (confirmed): a filter whose operator is none of the nine
recognised ones always evaluates `true` (the `default` branch of the
switch), so a filtering pass with it keeps every row; no error is raised
(the predicate is total). -/
theorem filter_unknown_operator (f : FilterSpec) (r : Row) (rows : List Row)
    (h : f.operator ∉ ["equals", "not_equals", "contains", "not_contains",
      "greater_than", "less_than", "between", "in", "not_in"]) :
    filterPred f r = true ∧ filterStage [f] rows = rows := by
  have hs : ¬(f.operator = "equals" ∨ f.operator = "not_equals" ∨ f.operator = "contains"
      ∨ f.operator = "not_contains" ∨ f.operator = "greater_than" ∨ f.operator = "less_than"
      ∨ f.operator = "between" ∨ f.operator = "in" ∨ f.operator = "not_in") := by
    simpa using h
  push_neg at hs
  obtain ⟨h1, h2, h3, h4, h5, h6, h7, h8, h9⟩ := hs
  have hp : ∀ x : Row, filterPred f x = true := by
    intro x
    simp [filterPred, h1, h2, h3, h4, h5, h6, h7, h8, h9]
  refine ⟨hp r, ?_⟩
  show rows.filter (filterPred f) = rows
  exact List.filter_eq_self.mpr fun x _ => hp x

/-- C8 witness: the unrecognised operator `"regex"` keeps the row. -/
theorem filter_unknown_operator_witness :
    ("regex" : String) ∉ ["equals", "not_equals", "contains", "not_contains",
      "greater_than", "less_than", "between", "in", "not_in"]
    ∧ (filterPred ⟨"a", "regex", .scalar (.num 1)⟩ [("a", .num 0)] = true
      ∧ filterStage [⟨"a", "regex", .scalar (.num 1)⟩] [[("a", .num 0)]] = [[("a", .num 0)]]) :=
  ⟨by decide, filter_unknown_operator ⟨"a", "regex", .scalar (.num 1)⟩ [("a", .num 0)]
    [[("a", .num 0)]] (by decide)⟩

theorem rget_eq_undef_of_not_mem {r : Row} {c : String} (h : c ∉ rkeys r) :
    rget r c = .undef := by
  induction r with
  | nil => rfl
  | cons p t ih =>
    obtain ⟨k, v⟩ := p
    simp only [rkeys, List.map_cons, List.mem_cons] at h
    push_neg at h
    have hne : k ≠ c := fun hkc => h.1 hkc.symm
    rw [rget, if_neg hne]
    exact ih (by simpa [rkeys] using h.2)

/-- A scalar that can occur in a JSON request body or a parsed
spreadsheet cell: everything except `undefined`, NaN and the symbolic
square root (JSON cannot encode any of those three). -/
def jsonScalar : Val → Bool
  | .undef => false
  | .nan => false
  | .sqrtv _ => false
  | _ => true

/-- Claim C10 (confirmed): when the filter's column is absent from the row,
`equals` holds exactly for the filter value `null` (the missing cell
reads as `undefined`, which is loosely equal to `null` and loosely
unequal to every other JSON scalar), and `not_equals` is its exact
negation; the lookup itself cannot fail. -/
theorem equals_missing_column (r : Row) (c : String) (v : Val)
    (hc : c ∉ rkeys r) (hv : jsonScalar v = true) :
    filterPred ⟨c, "equals", .scalar v⟩ r = (v == Val.null)
    ∧ filterPred ⟨c, "not_equals", .scalar v⟩ r = !(v == Val.null) := by
  have hg : rget r c = .undef := rget_eq_undef_of_not_mem hc
  cases v <;> simp_all [filterPred, looseEqFV, looseEq, jsonScalar]

/-- C10 witness: row `{b: 1}`, column `a`: the filter value `null`
satisfies `equals` and falsifies `not_equals`. -/
theorem equals_missing_column_witness :
    ("a" ∉ rkeys [("b", Val.num 1)]) ∧ jsonScalar Val.null = true
    ∧ (filterPred ⟨"a", "equals", .scalar .null⟩ [("b", .num 1)] = (Val.null == Val.null)
      ∧ filterPred ⟨"a", "not_equals", .scalar .null⟩ [("b", .num 1)] = !(Val.null == Val.null)) :=
  ⟨by decide, by decide,
    equals_missing_column [("b", .num 1)] "a" .null (by decide) (by decide)⟩

/-- Claim C2, counterexample: the claim says `in` keeps a row whenever some
list element is loosely equal to the cell (`"5" == 5`), but the source
tests membership with `Array.includes`, which uses the strict
SameValueZero comparison: the numeric cell `5` is NOT found in `['5']`
and the row is dropped. -/
theorem in_loose_membership_counterexample :
    looseEq (.num 5) (.str "5") = true
    ∧ filterPred ⟨"a", "in", .list [.str "5"]⟩ [("a", .num 5)] = false
    ∧ filterStage [⟨"a", "in", .list [.str "5"]⟩] [[("a", .num 5)]] = [] := by
  decide

/-- Claim C2 as amended (proved): `in` keeps a row iff the filter value is a
list and some element is SameValueZero-equal (same type, same value) to
the cell — numeric strings do NOT match their numeric value; `not_in` is
the negation over the same strict membership; with a non-list value both
operators evaluate false and the row is excluded. -/
theorem in_membership_strict (r : Row) (c : String) (vs : List Val) (v : Val) :
    filterPred ⟨c, "in", .list vs⟩ r = vs.any (fun x => svz x (rget r c))
    ∧ filterPred ⟨c, "not_in", .list vs⟩ r = !(vs.any (fun x => svz x (rget r c)))
    ∧ filterPred ⟨c, "in", .scalar v⟩ r = false
    ∧ filterPred ⟨c, "not_in", .scalar v⟩ r = false := by
  refine ⟨?_, ?_, ?_, ?_⟩ <;> simp [filterPred]

/-! ### Sum and coercion helpers -/

theorem foldl_add_q (a : ℚ) (l : List ℚ) :
    l.foldl (· + ·) a = a + l.foldl (· + ·) 0 := by
  induction l generalizing a with
  | nil => simp
  | cons x t ih =>
    simp only [List.foldl_cons]
    rw [ih (a + x), ih (0 + x)]
    ring

theorem sumQ_cons (x : ℚ) (l : List ℚ) : sumQ (x :: l) = x + sumQ l := by
  simp only [sumQ, List.foldl_cons]
  rw [foldl_add_q (0 + x)]
  ring

theorem sumQ_append (l1 l2 : List ℚ) : sumQ (l1 ++ l2) = sumQ l1 + sumQ l2 := by
  induction l1 with
  | nil => simp [sumQ]
  | cons x t ih => simp only [List.cons_append, sumQ_cons, ih]; ring

theorem coercedVals_append (c : String) (l1 l2 : List Row) :
    coercedVals c (l1 ++ l2) = coercedVals c l1 ++ coercedVals c l2 := by
  simp [coercedVals]

theorem rget_rset_self (r : Row) (k : String) (v : Val) : rget (rset r k v) k = v := by
  induction r with
  | nil => simp [rset, rget]
  | cons p t ih =>
    obtain ⟨k', v'⟩ := p
    by_cases hk : k' = k
    · simp [rset, rget, hk]
    · simp [rset, rget, hk, ih]

/-- Claim C3, counterexample: adding an explicit `null` where a key was
absent changes the output.  With `groupBy ['g']` and a `count`
aggregation on `v`, the row `{g:'x'}` yields `v_count = 0` (absent
coerces to NaN and is excluded) while `{g:'x', v:null}` yields
`v_count = 1` (`Number(null)` is `0`, which is counted). -/
theorem absent_vs_null_counterexample :
    processData [[("g", .str "x")]] ⟨[], ["g"], [⟨"v", "count"⟩], []⟩
      = [[("g", .str "x"), ("v_count", .num 0)]]
    ∧ processData [[("g", .str "x"), ("v", .null)]] ⟨[], ["g"], [⟨"v", "count"⟩], []⟩
      = [[("g", .str "x"), ("v_count", .num 1)]]
    ∧ processData [[("g", .str "x")]] ⟨[], ["g"], [⟨"v", "count"⟩], []⟩
      ≠ processData [[("g", .str "x"), ("v", .null)]] ⟨[], ["g"], [⟨"v", "count"⟩], []⟩ := by
  decide

/-- Claim C3 as amended (proved): absent keys are excluded from aggregation
(they coerce to NaN), while an explicit `null` coerces to `0` and is
included.  Replacing an absent aggregation-column key by `null` in one
group row therefore inserts a `0` into the group's coerced values: the
`sum` aggregate is unchanged, but `count` grows by one (and avg, min,
max, median and std_dev see the extra `0` as well). -/
theorem absent_excluded_null_zero (rs1 rs2 : List Row) (r : Row) (c : String)
    (h : rget r c = .undef) :
    coercedVals c (rs1 ++ r :: rs2) = coercedVals c rs1 ++ coercedVals c rs2
    ∧ coercedVals c (rs1 ++ rset r c .null :: rs2)
      = coercedVals c rs1 ++ 0 :: coercedVals c rs2
    ∧ applyAgg "sum" (coercedVals c (rs1 ++ rset r c .null :: rs2))
      = applyAgg "sum" (coercedVals c (rs1 ++ r :: rs2))
    ∧ applyAgg "count" (coercedVals c (rs1 ++ rset r c .null :: rs2))
      = some (.num ((coercedVals c (rs1 ++ r :: rs2)).length + 1)) := by
  have habs : coercedVals c [r] = [] := by
    simp [coercedVals, h, toNum]
  have hnull : coercedVals c [rset r c .null] = [0] := by
    simp [coercedVals, rget_rset_self, toNum]
  have e1 : coercedVals c (rs1 ++ r :: rs2) = coercedVals c rs1 ++ coercedVals c rs2 := by
    have step : coercedVals c (r :: rs2) = coercedVals c rs2 := by
      have := coercedVals_append c [r] rs2
      simpa [habs] using this
    rw [coercedVals_append, step]
  have e2 : coercedVals c (rs1 ++ rset r c .null :: rs2)
      = coercedVals c rs1 ++ 0 :: coercedVals c rs2 := by
    have step : coercedVals c (rset r c .null :: rs2) = 0 :: coercedVals c rs2 := by
      have := coercedVals_append c [rset r c .null] rs2
      simpa [hnull] using this
    rw [coercedVals_append, step]
  refine ⟨e1, e2, ?_, ?_⟩
  · rw [e1, e2]
    have hsum : sumQ (coercedVals c rs1 ++ 0 :: coercedVals c rs2)
        = sumQ (coercedVals c rs1 ++ coercedVals c rs2) := by
      rw [sumQ_append, sumQ_append, sumQ_cons]
      ring
    simp [applyAgg, hsum]
  · rw [e1, e2]
    have hc1 : ¬ ("count" : String) = "sum" := by decide
    have hc2 : ¬ ("count" : String) = "avg" := by decide
    simp only [applyAgg, if_neg hc1, if_neg hc2, if_pos rfl, if_true, Option.some.injEq,
      Val.num.injEq, List.length_append, List.length_cons]
    push_cast
    ring

/-- C3 amended witness: the single row `{g:'x'}` with column `v`. -/
theorem absent_excluded_null_zero_witness :
    rget [("g", Val.str "x")] "v" = .undef
    ∧ (coercedVals "v" ([] ++ [("g", Val.str "x")] :: []) = coercedVals "v" [] ++ coercedVals "v" []
      ∧ coercedVals "v" ([] ++ rset [("g", Val.str "x")] "v" .null :: [])
        = coercedVals "v" [] ++ 0 :: coercedVals "v" []
      ∧ applyAgg "sum" (coercedVals "v" ([] ++ rset [("g", Val.str "x")] "v" .null :: []))
        = applyAgg "sum" (coercedVals "v" ([] ++ [("g", Val.str "x")] :: []))
      ∧ applyAgg "count" (coercedVals "v" ([] ++ rset [("g", Val.str "x")] "v" .null :: []))
        = some (.num ((coercedVals "v" ([] ++ [("g", Val.str "x")] :: [])).length + 1))) :=
  ⟨by decide, absent_excluded_null_zero [] [] [("g", .str "x")] "v" (by decide)⟩

/-! ### Aggregation function facts -/

/-- The seven recognised aggregation function names. -/
def aggFns : List String := ["sum", "avg", "count", "min", "max", "median", "std_dev"]

theorem applyAgg_isSome (fn : String) (vals : List ℚ) (h : fn ∈ aggFns) :
    (applyAgg fn vals).isSome := by
  simp only [aggFns, List.mem_cons, List.mem_singleton, List.not_mem_nil, or_false] at h
  rcases h with h | h | h | h | h | h | h <;> subst h <;> simp [applyAgg] <;> split <;> simp

theorem applyAgg_none_iff (fn : String) (vals : List ℚ) :
    applyAgg fn vals = none ↔ fn ∉ aggFns := by
  constructor
  · intro h hmem
    have hs := applyAgg_isSome fn vals hmem
    rw [h] at hs
    simp at hs
  · intro h
    simp only [aggFns, List.mem_cons, List.mem_singleton, List.not_mem_nil, or_false] at h
    push_neg at h
    obtain ⟨h1, h2, h3, h4, h5, h6, h7⟩ := h
    simp [applyAgg, h1, h2, h3, h4, h5, h6, h7]

/-- Claim C4 (confirmed): each aggregation field is a function of exactly
the coerced numeric values of its column within the group — two groups
with the same coerced values get the same aggregate; a row whose value in
the column is not numeric-coercible is excluded from the computation
(appending it changes nothing, it is not treated as 0); `count` returns
the number of coercible values; and the `<column>_<function>` field of
the group's output record carries exactly this aggregate. -/
theorem agg_function_of_coercibles (c fn : String) (hfn : fn ∈ aggFns)
    (g1 g2 : List Row) (hv : coercedVals c g1 = coercedVals c g2)
    (r : Row) (hnc : toNum (rget r c) = none) (gb : List String) (k : String) :
    applyAgg fn (coercedVals c g1) = applyAgg fn (coercedVals c g2)
    ∧ coercedVals c (g1 ++ [r]) = coercedVals c g1
    ∧ applyAgg fn (coercedVals c (g1 ++ [r])) = applyAgg fn (coercedVals c g1)
    ∧ applyAgg "count" (coercedVals c g1) = some (.num ((coercedVals c g1).length))
    ∧ rget (groupRecord gb [⟨c, fn⟩] k g1) (aggName ⟨c, fn⟩)
        = (applyAgg fn (coercedVals c g1)).getD .undef := by
  have hext : coercedVals c (g1 ++ [r]) = coercedVals c g1 := by
    rw [coercedVals_append]
    simp [coercedVals, hnc]
  refine ⟨by rw [hv], hext, by rw [hext], by simp [applyAgg], ?_⟩
  obtain ⟨v, hv2⟩ := Option.isSome_iff_exists.mp (applyAgg_isSome fn (coercedVals c g1) hfn)
  unfold groupRecord
  simp [setAggs, hv2, rget_rset_self]

/-- C4 witness: group values `['a','b',3]` — the two non-numeric strings
are excluded, `sum` is `3` and `count` is `1` (not the row count `3`);
the group sharing coerced values with `[3]` agrees on every aggregate. -/
theorem agg_function_of_coercibles_witness :
    ("sum" ∈ aggFns
      ∧ coercedVals "v" [[("v", Val.str "a")], [("v", .str "b")], [("v", .num 3)]]
        = coercedVals "v" [[("v", Val.num 3)]]
      ∧ toNum (rget [("v", Val.str "b")] "v") = none)
    ∧ applyAgg "sum" (coercedVals "v" [[("v", Val.str "a")], [("v", .str "b")], [("v", .num 3)]])
        = some (.num 3)
    ∧ applyAgg "count" (coercedVals "v" [[("v", Val.str "a")], [("v", .str "b")], [("v", .num 3)]])
        = some (.num 1)
    ∧ (applyAgg "sum" (coercedVals "v" [[("v", Val.str "a")], [("v", .str "b")], [("v", .num 3)]])
        = applyAgg "sum" (coercedVals "v" [[("v", Val.num 3)]])
      ∧ coercedVals "v" ([[("v", Val.str "a")], [("v", .str "b")], [("v", .num 3)]] ++ [[("v", Val.str "b")]])
        = coercedVals "v" [[("v", Val.str "a")], [("v", .str "b")], [("v", .num 3)]]
      ∧ applyAgg "sum" (coercedVals "v" ([[("v", Val.str "a")], [("v", .str "b")], [("v", .num 3)]] ++ [[("v", Val.str "b")]]))
        = applyAgg "sum" (coercedVals "v" [[("v", Val.str "a")], [("v", .str "b")], [("v", .num 3)]])
      ∧ applyAgg "count" (coercedVals "v" [[("v", Val.str "a")], [("v", .str "b")], [("v", .num 3)]])
        = some (.num ((coercedVals "v" [[("v", Val.str "a")], [("v", .str "b")], [("v", .num 3)]]).length))
      ∧ rget (groupRecord ["g"] [⟨"v", "sum"⟩] "x" [[("v", Val.str "a")], [("v", .str "b")], [("v", .num 3)]]) (aggName ⟨"v", "sum"⟩)
        = (applyAgg "sum" (coercedVals "v" [[("v", Val.str "a")], [("v", .str "b")], [("v", .num 3)]])).getD .undef) :=
  ⟨⟨by decide, by decide, by decide⟩, by decide, by decide,
    agg_function_of_coercibles "v" "sum" (by decide)
      [[("v", .str "a")], [("v", .str "b")], [("v", .num 3)]] [[("v", .num 3)]] (by decide)
      [("v", .str "b")] (by decide) ["g"] "x"⟩

/-! ### Output record key set (C9) -/

theorem rkeys_cons (p : String × Val) (t : Row) : rkeys (p :: t) = p.1 :: rkeys t := rfl

theorem rkeys_rset_mem (r : Row) (k : String) (v : Val) (x : String) :
    x ∈ rkeys (rset r k v) ↔ x ∈ rkeys r ∨ x = k := by
  induction r with
  | nil => simp [rset, rkeys]
  | cons p t ih =>
    obtain ⟨a, b⟩ := p
    simp only [rset]
    by_cases hk : a = k
    · subst hk
      rw [if_pos rfl, rkeys_cons, rkeys_cons]
      simp only [List.mem_cons]
      tauto
    · rw [if_neg hk, rkeys_cons, rkeys_cons]
      simp only [List.mem_cons]
      rw [ih]
      tauto

theorem rkeys_setCols_mem (parts : List String) (cols : List String) :
    ∀ (r : Row) (i : ℕ) (x : String),
      x ∈ rkeys (setCols r parts cols i) ↔ x ∈ rkeys r ∨ x ∈ cols := by
  induction cols with
  | nil => simp [setCols]
  | cons c t ih =>
    intro r i x
    simp only [setCols]
    rw [ih]
    rw [rkeys_rset_mem]
    simp only [List.mem_cons]
    tauto

theorem rkeys_setAggs_mem (rows : List Row) (aggs : List Agg) :
    ∀ (r : Row) (x : String),
      x ∈ rkeys (setAggs r rows aggs) ↔
        x ∈ rkeys r ∨ ∃ a ∈ aggs, a.function ∈ aggFns ∧ x = aggName a := by
  induction aggs with
  | nil => simp [setAggs]
  | cons a t ih =>
    intro r x
    simp only [setAggs]
    cases happ : applyAgg a.function (coercedVals a.column rows) with
    | some v =>
      have hfn : a.function ∈ aggFns := by
        by_contra hc
        rw [(applyAgg_none_iff a.function (coercedVals a.column rows)).mpr hc] at happ
        exact Option.noConfusion happ
      rw [ih, rkeys_rset_mem]
      simp only [List.mem_cons]
      constructor
      · rintro ((hx | hx) | ⟨b, hb, hbf, hbe⟩)
        · exact Or.inl hx
        · exact Or.inr ⟨a, Or.inl rfl, hfn, hx⟩
        · exact Or.inr ⟨b, Or.inr hb, hbf, hbe⟩
      · rintro (hx | ⟨b, (hb | hb), hbf, hbe⟩)
        · exact Or.inl (Or.inl hx)
        · subst hb
          exact Or.inl (Or.inr hbe)
        · exact Or.inr ⟨b, hb, hbf, hbe⟩
    | none =>
      have hfn : a.function ∉ aggFns := (applyAgg_none_iff a.function (coercedVals a.column rows)).mp happ
      rw [ih]
      simp only [List.mem_cons]
      constructor
      · rintro (hx | ⟨b, hb, hbf, hbe⟩)
        · exact Or.inl hx
        · exact Or.inr ⟨b, Or.inr hb, hbf, hbe⟩
      · rintro (hx | ⟨b, (hb | hb), hbf, hbe⟩)
        · exact Or.inl hx
        · subst hb
          exact absurd hbf hfn
        · exact Or.inr ⟨b, hb, hbf, hbe⟩

theorem insertC_perm (cmp : α → α → Int) (a : α) (l : List α) :
    (insertC cmp a l).Perm (a :: l) := by
  induction l with
  | nil => exact List.Perm.refl _
  | cons b t ih =>
    simp only [insertC]
    split
    · exact List.Perm.refl _
    · exact (ih.cons b).trans (List.Perm.swap a b t)

theorem sortFold_perm (cmp : α → α → Int) :
    ∀ (todo acc : List α),
      (List.foldl (fun ac a => insertC cmp a ac) acc todo).Perm (acc ++ todo) := by
  intro todo
  induction todo with
  | nil => intro acc; simp
  | cons a t ih =>
    intro acc
    simp only [List.foldl_cons]
    have h1 := ih (insertC cmp a acc)
    have h2 : (insertC cmp a acc ++ t).Perm (acc ++ a :: t) := by
      have h3 : (insertC cmp a acc ++ t).Perm ((a :: acc) ++ t) :=
        (insertC_perm cmp a acc).append_right t
      have h4 : ((a :: acc) ++ t) = a :: (acc ++ t) := rfl
      rw [h4] at h3
      exact h3.trans List.perm_middle.symm
    exact h1.trans h2

theorem jsSortBy_perm (cmp : α → α → Int) (l : List α) : (jsSortBy cmp l).Perm l := by
  simpa using sortFold_perm cmp l []

theorem mem_orderStage (specs : List OrderSpec) (l : List Row) (x : Row) :
    x ∈ orderStage specs l ↔ x ∈ l := by
  unfold orderStage
  split
  · exact Iff.rfl
  · exact (jsSortBy_perm (lexCmp specs) l).mem_iff

/-- Claim C9 (confirmed): with a non-empty `groupBy`, every output record
has exactly these keys: the `groupBy` columns, plus `<column>_<function>`
for each aggregation whose function is one of the seven recognised names;
an unrecognised aggregation function contributes no field (and raises no
error — the switch simply assigns nothing), and every other input column
is absent from the record. -/
theorem grouped_output_fields (rows : List Row) (cfg : Config)
    (hgb : cfg.groupBy ≠ []) (rec : Row) (hrec : rec ∈ processData rows cfg) (k : String) :
    k ∈ rkeys rec ↔
      (k ∈ cfg.groupBy ∨ ∃ a ∈ cfg.aggregations, a.function ∈ aggFns ∧ k = aggName a) := by
  rw [processData, mem_orderStage] at hrec
  rw [groupStage, if_neg hgb] at hrec
  obtain ⟨p, hp, rfl⟩ := List.mem_map.mp hrec
  unfold groupRecord
  rw [rkeys_setAggs_mem, rkeys_setCols_mem]
  simp [rkeys]

/-- C9 witness: one row `{g:'x', z:1}`, grouped by `g` with a `count`
aggregation and a bogus one; the input column `z` is absent from the
output record, whose keys are exactly `g` and `v_count`. -/
theorem grouped_output_fields_witness :
    ((["g"] : List String) ≠ []
      ∧ [("g", Val.str "x"), ("v_count", Val.num 0)]
          ∈ processData [[("g", Val.str "x"), ("z", Val.num 1)]]
              ⟨[], ["g"], [⟨"v", "count"⟩, ⟨"v", "bogus"⟩], []⟩)
    ∧ (("z" ∈ rkeys [("g", Val.str "x"), ("v_count", Val.num 0)]) ↔
        ("z" ∈ (⟨[], ["g"], [⟨"v", "count"⟩, ⟨"v", "bogus"⟩], []⟩ : Config).groupBy
          ∨ ∃ a ∈ (⟨[], ["g"], [⟨"v", "count"⟩, ⟨"v", "bogus"⟩], []⟩ : Config).aggregations,
              a.function ∈ aggFns ∧ "z" = aggName a)) :=
  ⟨⟨by decide, by decide⟩,
    grouped_output_fields [[("g", Val.str "x"), ("z", Val.num 1)]]
      ⟨[], ["g"], [⟨"v", "count"⟩, ⟨"v", "bogus"⟩], []⟩ (by decide)
      [("g", Val.str "x"), ("v_count", Val.num 0)] (by decide) "z"⟩

/-! ### Group bucket structure (C1) -/

theorem mem_firstSeen (x : String) (l : List String) : x ∈ firstSeen l ↔ x ∈ l := by
  induction l with
  | nil => simp [firstSeen]
  | cons a t ih =>
    simp only [firstSeen, List.mem_cons, List.mem_filter, ih, decide_eq_true_eq]
    by_cases hx : x = a
    · subst hx; tauto
    · tauto

theorem firstSeen_nodup (l : List String) : (firstSeen l).Nodup := by
  induction l with
  | nil => exact List.nodup_nil
  | cons a t ih =>
    simp only [firstSeen]
    refine List.Nodup.cons ?_ (List.Nodup.filter _ ih)
    simp [List.mem_filter]

theorem firstSeen_append_singleton (l : List String) (k : String) :
    firstSeen (l ++ [k]) = if k ∈ l then firstSeen l else firstSeen l ++ [k] := by
  induction l with
  | nil => simp [firstSeen]
  | cons a t ih =>
    show firstSeen (a :: (t ++ [k])) = _
    simp only [firstSeen, ih]
    by_cases hk : k ∈ t
    · rw [if_pos hk, if_pos (List.mem_cons.mpr (Or.inr hk))]
    · rw [if_neg hk]
      by_cases hka : k = a
      · subst hka
        rw [if_pos (List.mem_cons.mpr (Or.inl rfl)), List.filter_append]
        simp
      · rw [if_neg (show k ∉ a :: t by simp [hka, hk]), List.filter_append]
        simp [hka]

theorem buildGroups_snoc (gb : List String) (rows : List Row) (r : Row) :
    buildGroups gb (rows ++ [r]) = addToGroups (buildGroups gb rows) (groupKey gb r) r := by
  unfold buildGroups
  rw [List.foldl_append]
  rfl

theorem addToGroups_not_mem (gs : List (String × List Row)) (k : String) (r : Row)
    (h : k ∉ gs.map Prod.fst) : addToGroups gs k r = gs ++ [(k, [r])] := by
  induction gs with
  | nil => rfl
  | cons p t ih =>
    obtain ⟨k0, rs⟩ := p
    simp only [List.map_cons, List.mem_cons] at h
    push_neg at h
    have hne : ¬ (k0 = k) := fun he => h.1 he.symm
    simp only [addToGroups, if_neg hne, List.cons_append]
    rw [ih h.2]

theorem filter_rows_append_ne (rows : List Row) (r : Row) (gb : List String) (k k1 : String)
    (hne : k1 ≠ k) (hk : groupKey gb r = k) :
    (rows ++ [r]).filter (fun row => groupKey gb row == k1)
      = rows.filter (fun row => groupKey gb row == k1) := by
  rw [List.filter_append]
  have : (groupKey gb r == k1) = false := by
    rw [hk]
    exact beq_false_of_ne (Ne.symm hne)
  simp [List.filter_cons, this]

theorem addToGroups_map_mem (gb : List String) (rows : List Row) (r : Row) (k : String)
    (hk : groupKey gb r = k) (ks : List String) :
    k ∈ ks → ks.Nodup →
      addToGroups (ks.map fun k1 => (k1, rows.filter fun row => groupKey gb row == k1)) k r
        = ks.map fun k1 => (k1, (rows ++ [r]).filter fun row => groupKey gb row == k1) := by
  induction ks with
  | nil => intro h; exact absurd h (List.not_mem_nil k)
  | cons k0 t ih =>
    intro hmem hnd
    simp only [List.map_cons, addToGroups]
    by_cases h0 : k0 = k
    · rw [if_pos h0]
      subst h0
      have hknot : k0 ∉ t := (List.nodup_cons.mp hnd).1
      have hhead : rows.filter (fun row => groupKey gb row == k0) ++ [r]
          = (rows ++ [r]).filter fun row => groupKey gb row == k0 := by
        rw [List.filter_append]
        simp [List.filter_cons, hk]
      rw [hhead]
      have htail : (t.map fun k1 => (k1, rows.filter fun row => groupKey gb row == k1))
          = t.map fun k1 => (k1, (rows ++ [r]).filter fun row => groupKey gb row == k1) := by
        apply List.map_congr_left
        intro k1 hk1
        have hne : k1 ≠ k0 := fun he => hknot (he ▸ hk1)
        rw [filter_rows_append_ne rows r gb k0 k1 hne hk]
      rw [htail]
    · rw [if_neg h0]
      have hmem1 : k ∈ t := by
        rcases List.mem_cons.mp hmem with h | h
        · exact absurd h.symm h0
        · exact h
      rw [ih hmem1 (List.nodup_cons.mp hnd).2]
      rw [filter_rows_append_ne rows r gb k k0 h0 hk]

theorem buildGroups_eq (gb : List String) (rows : List Row) :
    buildGroups gb rows
      = (firstSeen (rows.map fun row => groupKey gb row)).map
          fun k => (k, rows.filter fun row => groupKey gb row == k) := by
  induction rows using List.reverseRecOn with
  | nil => rfl
  | append_singleton rows r ih =>
    rw [buildGroups_snoc, ih, List.map_append]
    have hone : (List.map (fun row => groupKey gb row) [r]) = [groupKey gb r] := by simp
    rw [hone, firstSeen_append_singleton]
    by_cases hmem : groupKey gb r ∈ rows.map fun row => groupKey gb row
    · rw [if_pos hmem]
      exact addToGroups_map_mem gb rows r (groupKey gb r) rfl _
        ((mem_firstSeen _ _).mpr hmem) (firstSeen_nodup _)
    · rw [if_neg hmem]
      have hkeys : groupKey gb r
          ∉ ((firstSeen (rows.map fun row => groupKey gb row)).map
              fun k => (k, rows.filter fun row => groupKey gb row == k)).map Prod.fst := by
        rw [List.map_map]
        simpa [mem_firstSeen] using hmem
      rw [addToGroups_not_mem _ _ _ hkeys, List.map_append]
      congr 1
      · apply List.map_congr_left
        intro k1 hk1
        have hne : k1 ≠ groupKey gb r := by
          intro he
          exact hmem (by simpa [he] using (mem_firstSeen _ _).mp hk1)
        rw [filter_rows_append_ne rows r gb (groupKey gb r) k1 hne rfl]
      · have hflt : rows.filter (fun row => groupKey gb row == groupKey gb r) = [] := by
          rw [List.filter_eq_nil_iff]
          intro row hrow hbeq
          exact hmem (List.mem_map.mpr ⟨row, hrow, (eq_of_beq hbeq)⟩)
        simp [List.filter_append, List.filter_cons, hflt]

theorem insertC_map (f : α → β) (cmp : β → β → Int) (a : α) (l : List α) :
    insertC cmp (f a) (l.map f) = (insertC (fun x y => cmp (f x) (f y)) a l).map f := by
  induction l with
  | nil => rfl
  | cons b t ih =>
    simp only [List.map_cons, insertC]
    split
    · simp
    · simp [ih]

theorem sortFold_map (f : α → β) (cmp : β → β → Int) :
    ∀ (l : List α) (acc : List α),
      List.foldl (fun ac x => insertC cmp x ac) (acc.map f) (l.map f)
        = (List.foldl (fun ac x => insertC (fun x y => cmp (f x) (f y)) x ac) acc l).map f := by
  intro l
  induction l with
  | nil => intro acc; simp
  | cons a t ih =>
    intro acc
    simp only [List.map_cons, List.foldl_cons]
    rw [insertC_map, ih]

theorem jsSortBy_map (f : α → β) (cmp : β → β → Int) (l : List α) :
    jsSortBy cmp (l.map f) = (jsSortBy (fun x y => cmp (f x) (f y)) l).map f := by
  simpa [jsSortBy] using sortFold_map f cmp l []

theorem jsEntries_keyed_map (g : String → List Row) (ks : List String) :
    jsEntries (ks.map fun k => (k, g k))
      = (jsKeyOrder ks).map fun k => (k, g k) := by
  unfold jsEntries jsKeyOrder
  rw [List.filter_map, List.filter_map, jsSortBy_map, List.map_append]
  rfl

/-- Claim C1, counterexample: `grouped` is a plain JS object, and
`Object.entries` enumerates array-index keys (canonical small-integer
strings) first in ascending numeric order, not in first-seen order.
Grouping `[{g:2},{g:1}]` by `g` produces the keys `"2","1"` in first-seen
order, but the output lists group `"1"` first. -/
theorem group_first_seen_counterexample :
    processData [[("g", .num 2)], [("g", .num 1)]] ⟨[], ["g"], [], []⟩
      = [[("g", Val.str "1")], [("g", Val.str "2")]]
    ∧ firstSeen ([[("g", Val.num 2)], [("g", Val.num 1)]].map fun row => groupKey ["g"] row)
      = ["2", "1"]
    ∧ processData [[("g", .num 2)], [("g", .num 1)]] ⟨[], ["g"], [], []⟩
      ≠ (firstSeen ([[("g", Val.num 2)], [("g", Val.num 1)]].map fun row => groupKey ["g"] row)).map
          (fun k => groupRecord ["g"] [] k
            ([[("g", Val.num 2)], [("g", Val.num 1)]].filter fun row => groupKey ["g"] row == k)) := by
  decide

/-- Claim C1 as amended (proved): with non-empty `groupBy` the
group/aggregate stage emits exactly one record per distinct group key of
the filtered rows (the key list is the duplicate-free first-seen list,
and each record is built from exactly the rows of its group), but the
records appear in `Object.entries` order: keys that are canonical decimal
strings of integers below `2^32 - 1` come first in ascending numeric
order, and only the remaining keys follow in first-seen order. -/
theorem group_first_seen_order (rows : List Row) (cfg : Config) (hgb : cfg.groupBy ≠ []) :
    groupStage cfg.groupBy cfg.aggregations (filterStage cfg.filters rows)
      = (jsKeyOrder (firstSeen ((filterStage cfg.filters rows).map
            fun row => groupKey cfg.groupBy row))).map
          (fun k => groupRecord cfg.groupBy cfg.aggregations k
            ((filterStage cfg.filters rows).filter fun row => groupKey cfg.groupBy row == k))
    ∧ (firstSeen ((filterStage cfg.filters rows).map
        fun row => groupKey cfg.groupBy row)).Nodup := by
  refine ⟨?_, firstSeen_nodup _⟩
  rw [groupStage, if_neg hgb, buildGroups_eq, jsEntries_keyed_map, List.map_map]
  rfl

/-- C1 amended witness: the spec's own grouping example
`[{g:'x',v:10},{g:'x',v:20},{g:'y',v:5}]` grouped by `g` with a `sum`
aggregation (string keys, so entries order and first-seen order agree
here). -/
theorem group_first_seen_order_witness :
    ((["g"] : List String) ≠ [])
    ∧ (groupStage ["g"] [⟨"v", "sum"⟩]
          (filterStage [] [[("g", Val.str "x"), ("v", Val.num 10)],
            [("g", Val.str "x"), ("v", Val.num 20)], [("g", Val.str "y"), ("v", Val.num 5)]])
        = (jsKeyOrder (firstSeen ((filterStage [] [[("g", Val.str "x"), ("v", Val.num 10)],
              [("g", Val.str "x"), ("v", Val.num 20)], [("g", Val.str "y"), ("v", Val.num 5)]]).map
                fun row => groupKey ["g"] row))).map
            (fun k => groupRecord ["g"] [⟨"v", "sum"⟩] k
              ((filterStage [] [[("g", Val.str "x"), ("v", Val.num 10)],
                [("g", Val.str "x"), ("v", Val.num 20)], [("g", Val.str "y"), ("v", Val.num 5)]]).filter
                  fun row => groupKey ["g"] row == k))
      ∧ (firstSeen ((filterStage [] [[("g", Val.str "x"), ("v", Val.num 10)],
          [("g", Val.str "x"), ("v", Val.num 20)], [("g", Val.str "y"), ("v", Val.num 5)]]).map
            fun row => groupKey ["g"] row)).Nodup) :=
  ⟨by decide,
    group_first_seen_order [[("g", Val.str "x"), ("v", Val.num 10)],
      [("g", Val.str "x"), ("v", Val.num 20)], [("g", Val.str "y"), ("v", Val.num 5)]]
      ⟨[], ["g"], [⟨"v", "sum"⟩], []⟩ (by decide)⟩

/-! ### Comparator algebra (C5) -/

theorem numVLt_asymm (a b : NumV) (h : numVLt a b = true) : numVLt b a = false := by
  cases a with
  | q x =>
    cases b with
    | q y =>
      simp only [numVLt, decide_eq_true_eq] at h
      simp only [numVLt, decide_eq_false_iff_not]
      linarith
    | sq y =>
      simp only [numVLt, Bool.or_eq_true, decide_eq_true_eq] at h
      simp only [numVLt, Bool.and_eq_false_iff, decide_eq_false_iff_not]
      rcases h with h | h
      · left; linarith
      · by_cases hx : 0 ≤ x
        · right; nlinarith
        · left; exact hx
  | sq x =>
    cases b with
    | q y =>
      simp only [numVLt, Bool.and_eq_true, decide_eq_true_eq] at h
      simp only [numVLt, Bool.or_eq_false_iff, decide_eq_false_iff_not]
      obtain ⟨h1, h2⟩ := h
      constructor
      · linarith
      · nlinarith
    | sq y =>
      simp only [numVLt, decide_eq_true_eq] at h
      simp only [numVLt, decide_eq_false_iff_not]
      linarith

theorem optNumVLt_asymm (oa ob : Option NumV) (h : optNumVLt oa ob = true) :
    optNumVLt ob oa = false := by
  match oa, ob with
  | some x, some y => exact numVLt_asymm x y h
  | some x, none => simp [optNumVLt] at h
  | none, some y => simp [optNumVLt] at h
  | none, none => simp [optNumVLt] at h

theorem charListLt_asymm : ∀ (x y : List Char),
    charListLt x y = true → charListLt y x = false := by
  intro x
  induction x with
  | nil =>
    intro y h
    cases y with
    | nil => simp [charListLt] at h
    | cons b bs => rfl
  | cons a as ih =>
    intro y h
    cases y with
    | nil => exact absurd h (by simp [charListLt])
    | cons b bs =>
      simp only [charListLt, Bool.or_eq_true, Bool.and_eq_true, decide_eq_true_eq] at h
      simp only [charListLt, Bool.or_eq_false_iff, Bool.and_eq_false_iff,
        decide_eq_false_iff_not]
      rcases h with h | ⟨h1, h2⟩
      · refine ⟨asymm h, Or.inl fun he => ?_⟩
        rw [he] at h
        exact lt_irrefl a h
      · refine ⟨?_, Or.inr (ih bs h2)⟩
        rw [h1]
        exact lt_irrefl b

theorem jsLt_asymm (a b : Val) (h : jsLt a b = true) : jsLt b a = false := by
  cases a <;> cases b <;> simp only [jsLt] at h ⊢ <;>
    first
      | exact optNumVLt_asymm _ _ h
      | exact charListLt_asymm _ _ h

theorem specCmp_antisymm (s : OrderSpec) (a b : Row) : specCmp s b a = -specCmp s a b := by
  unfold specCmp
  cases h1 : jsLt (rget a s.column) (rget b s.column) with
  | true =>
    have h2 := jsLt_asymm _ _ h1
    simp only [h1, h2, if_true, if_false, Bool.false_eq_true]
    by_cases hd : s.direction = "asc" <;> simp [hd]
  | false =>
    cases h2 : jsLt (rget b s.column) (rget a s.column) with
    | true =>
      simp only [h1, h2, Bool.false_eq_true, if_false, if_true]
      by_cases hd : s.direction = "asc" <;> simp [hd]
    | false =>
      simp [h1, h2]

theorem lexCmp_antisymm (specs : List OrderSpec) (a b : Row) :
    lexCmp specs b a = -lexCmp specs a b := by
  induction specs with
  | nil => rfl
  | cons s t ih =>
    unfold lexCmp
    rw [specCmp_antisymm]
    by_cases h : specCmp s a b = 0
    · simp [h, ih]
    · simp [h, neg_eq_zero]

theorem cmp_lt_of_lt_of_le {α : Type} (cmp : α → α → Int) (pool : List α)
    (hanti : ∀ x y, cmp y x = -cmp x y)
    (htrans : ∀ x, x ∈ pool → ∀ y, y ∈ pool → ∀ z, z ∈ pool →
      cmp x y ≤ 0 → cmp y z ≤ 0 → cmp x z ≤ 0)
    (x y z : α) (hx : x ∈ pool) (hy : y ∈ pool) (hz : z ∈ pool)
    (h1 : cmp x y < 0) (h2 : cmp y z ≤ 0) : cmp x z < 0 := by
  by_contra hcon
  push_neg at hcon
  have hxz' := hanti x z
  have hzx : cmp z x ≤ 0 := by rw [hxz']; linarith
  have hzy : cmp z y ≤ 0 := htrans z hz x hx y hy hzx (le_of_lt h1)
  have hyz' := hanti z y
  have hyz0 : cmp y z = 0 := by rw [hyz']; linarith
  have hyx : cmp y x ≤ 0 := htrans y hy z hz x hx (le_of_eq hyz0) hzx
  have hxy' := hanti y x
  rw [hxy'] at h1
  linarith

theorem insertC_pairwise_stable {α : Type} (cmp : α → α → Int) (idx : α → ℕ) (pool : List α)
    (hanti : ∀ x y, cmp y x = -cmp x y)
    (htrans : ∀ x, x ∈ pool → ∀ y, y ∈ pool → ∀ z, z ∈ pool →
      cmp x y ≤ 0 → cmp y z ≤ 0 → cmp x z ≤ 0)
    (a : α) (ha : a ∈ pool) :
    ∀ (acc : List α), (∀ x ∈ acc, x ∈ pool) → (∀ x ∈ acc, idx x < idx a) →
      acc.Pairwise (fun p q => cmp p q < 0 ∨ (cmp p q = 0 ∧ idx p < idx q)) →
      (insertC cmp a acc).Pairwise (fun p q => cmp p q < 0 ∨ (cmp p q = 0 ∧ idx p < idx q)) := by
  intro acc
  induction acc with
  | nil =>
    intro _ _ _
    simp [insertC]
  | cons b t ih =>
    intro hmem hidx hpw
    rw [List.pairwise_cons] at hpw
    obtain ⟨hbt, hpt⟩ := hpw
    simp only [insertC]
    split
    case isTrue hab =>
      rw [List.pairwise_cons]
      refine ⟨?_, List.pairwise_cons.mpr ⟨hbt, hpt⟩⟩
      intro x hx
      rcases List.mem_cons.mp hx with rfl | hxt
      · exact Or.inl hab
      · have hbx : cmp b x ≤ 0 := by
          rcases hbt x hxt with h | ⟨h, _⟩
          · exact le_of_lt h
          · exact le_of_eq h
        exact Or.inl (cmp_lt_of_lt_of_le cmp pool hanti htrans a b x ha
          (hmem b (List.mem_cons_self b t)) (hmem x (List.mem_cons_of_mem b hxt)) hab hbx)
    case isFalse hab =>
      rw [List.pairwise_cons]
      constructor
      · intro x hx
        rw [(insertC_perm cmp a t).mem_iff] at hx
        rcases List.mem_cons.mp hx with rfl | hxt
        · have hba : cmp b x ≤ 0 := by
            rw [hanti x b]
            omega
          rcases lt_or_eq_of_le hba with h | h
          · exact Or.inl h
          · exact Or.inr ⟨h, hidx b (List.mem_cons_self b t)⟩
        · exact hbt x hxt
      · exact ih (fun x hx => hmem x (List.mem_cons_of_mem b hx))
          (fun x hx => hidx x (List.mem_cons_of_mem b hx)) hpt

theorem sortFold_pairwise_stable {α : Type} (cmp : α → α → Int) (idx : α → ℕ) (pool : List α)
    (hanti : ∀ x y, cmp y x = -cmp x y)
    (htrans : ∀ x, x ∈ pool → ∀ y, y ∈ pool → ∀ z, z ∈ pool →
      cmp x y ≤ 0 → cmp y z ≤ 0 → cmp x z ≤ 0) :
    ∀ (todo acc : List α),
      (∀ x ∈ todo, x ∈ pool) → (∀ x ∈ acc, x ∈ pool) →
      (∀ x ∈ acc, ∀ y ∈ todo, idx x < idx y) →
      todo.Pairwise (fun p q => idx p < idx q) →
      acc.Pairwise (fun p q => cmp p q < 0 ∨ (cmp p q = 0 ∧ idx p < idx q)) →
      (List.foldl (fun ac x => insertC cmp x ac) acc todo).Pairwise
        (fun p q => cmp p q < 0 ∨ (cmp p q = 0 ∧ idx p < idx q)) := by
  intro todo
  induction todo with
  | nil =>
    intro acc _ _ _ _ h
    exact h
  | cons a t ih =>
    intro acc htodo hacc hidx htpw hpw
    rw [List.pairwise_cons] at htpw
    obtain ⟨hat, htpw2⟩ := htpw
    simp only [List.foldl_cons]
    apply ih
    · intro x hx
      exact htodo x (List.mem_cons_of_mem a hx)
    · intro x hx
      rw [(insertC_perm cmp a acc).mem_iff] at hx
      rcases List.mem_cons.mp hx with h | h
      · subst h
        exact htodo x (List.mem_cons_self x t)
      · exact hacc x h
    · intro x hx y hy
      rw [(insertC_perm cmp a acc).mem_iff] at hx
      rcases List.mem_cons.mp hx with h | h
      · subst h
        exact hat y hy
      · exact hidx x h y (List.mem_cons_of_mem a hy)
    · exact htpw2
    · exact insertC_pairwise_stable cmp idx pool hanti htrans a
        (htodo a (List.mem_cons_self a t)) acc hacc
        (fun x hx => hidx x hx a (List.mem_cons_self a t)) hpw

theorem mem_enumFrom_facts {α : Type} :
    ∀ (l : List α) (n : ℕ) (p : ℕ × α), p ∈ List.enumFrom n l → n ≤ p.1 ∧ p.2 ∈ l := by
  intro l
  induction l with
  | nil =>
    intro n p h
    simp [List.enumFrom] at h
  | cons a t ih =>
    intro n p h
    rcases List.mem_cons.mp h with rfl | h2
    · exact ⟨Nat.le_refl n, List.mem_cons_self a t⟩
    · obtain ⟨h3, h4⟩ := ih (n + 1) p h2
      exact ⟨by omega, List.mem_cons_of_mem a h4⟩

theorem enumFrom_pairwise_fst {α : Type} :
    ∀ (l : List α) (n : ℕ), (List.enumFrom n l).Pairwise (fun p q => p.1 < q.1) := by
  intro l
  induction l with
  | nil => intro n; simp [List.enumFrom]
  | cons a t ih =>
    intro n
    refine List.Pairwise.cons ?_ (ih (n + 1))
    intro q hq
    have h := (mem_enumFrom_facts t (n + 1) q hq).1
    show n < q.1
    omega

theorem enumFrom_map_snd {α : Type} :
    ∀ (l : List α) (n : ℕ), (List.enumFrom n l).map Prod.snd = l := by
  intro l
  induction l with
  | nil => intro n; rfl
  | cons a t ih =>
    intro n
    simp only [List.enumFrom, List.map_cons, ih]

theorem pairwise_cycle_absurd {α : Type} (P : α → α → Prop) (l : List α)
    (hpw : l.Pairwise P) (a b c : α) (ha : a ∈ l) (hb : b ∈ l) (hc : c ∈ l)
    (hne1 : a ≠ b)
    (hab : ¬ P a b) (hbc : ¬ P b c) (hca : ¬ P c a) : False := by
  rw [List.pairwise_iff_get] at hpw
  obtain ⟨i, hi⟩ := List.mem_iff_get.mp ha
  obtain ⟨j, hj⟩ := List.mem_iff_get.mp hb
  obtain ⟨k, hk⟩ := List.mem_iff_get.mp hc
  have hij : ¬ i < j := fun h => hab (hi ▸ hj ▸ hpw i j h)
  have hjk : ¬ j < k := fun h => hbc (hj ▸ hk ▸ hpw j k h)
  have hki : ¬ k < i := fun h => hca (hk ▸ hi ▸ hpw k i h)
  have hij2 : i = j := by
    apply Fin.ext
    have h1 : ¬ i.val < j.val := hij
    have h2 : ¬ j.val < k.val := hjk
    have h3 : ¬ k.val < i.val := hki
    omega
  exact hne1 (hi ▸ hj ▸ hij2 ▸ rfl)

/-- Claim C5, counterexample: with mixed string/number values JS `<` is not
transitive — `{a:9}` must rank before `{a:'10'}` (numeric comparison),
`{a:'10'}` before `{a:'9'}` (string comparison), while `{a:'9'}` and
`{a:9}` tie and must keep input order.  These requirements form a cycle,
so NO output of the order stage (a permutation of the indexed input
rows) can satisfy the claim's ranking-plus-stability property. -/
theorem orderBy_lex_stable_counterexample :
    ¬ ∃ il : List (ℕ × Row),
      il.map Prod.snd = orderStage [⟨"a", "asc"⟩]
          [[("a", Val.str "9")], [("a", Val.num 9)], [("a", Val.str "10")]]
      ∧ il.Perm ([[("a", Val.str "9")], [("a", Val.num 9)], [("a", Val.str "10")]] : List Row).enum
      ∧ il.Pairwise (fun p q => lexCmp [⟨"a", "asc"⟩] p.2 q.2 < 0
          ∨ (lexCmp [⟨"a", "asc"⟩] p.2 q.2 = 0 ∧ p.1 < q.1)) := by
  rintro ⟨il, _, hperm, hpw⟩
  exact pairwise_cycle_absurd _ il hpw
    (2, [("a", Val.str "10")]) (1, [("a", Val.num 9)]) (0, [("a", Val.str "9")])
    (hperm.mem_iff.mpr (by decide)) (hperm.mem_iff.mpr (by decide))
    (hperm.mem_iff.mpr (by decide))
    (by decide) (by decide) (by decide) (by decide)

/-- Claim C5 as amended (proved): the order stage sorts by the specs as a
lexicographic key (the first spec with a nonzero comparison decides,
later specs break ties) and is stable (full ties keep input order) — for
every input on which the induced comparator is transitive (e.g. whenever
the compared values are all numbers, or all strings).  With mixed value
types JS `<` need not be transitive and the required ordering can be
unsatisfiable (see the counterexample). -/
theorem orderBy_lex_stable (specs : List OrderSpec) (l : List Row)
    (hs : specs ≠ [])
    (htr : ∀ x ∈ l, ∀ y ∈ l, ∀ z ∈ l,
      lexCmp specs x y ≤ 0 → lexCmp specs y z ≤ 0 → lexCmp specs x z ≤ 0) :
    ∃ il : List (ℕ × Row),
      il.map Prod.snd = orderStage specs l
      ∧ il.Perm l.enum
      ∧ il.Pairwise (fun p q => lexCmp specs p.2 q.2 < 0
          ∨ (lexCmp specs p.2 q.2 = 0 ∧ p.1 < q.1)) := by
  refine ⟨jsSortBy (fun p q : ℕ × Row => lexCmp specs p.2 q.2) l.enum, ?_, jsSortBy_perm _ _, ?_⟩
  · rw [orderStage, if_neg hs]
    have hmap := jsSortBy_map (Prod.snd : ℕ × Row → Row) (lexCmp specs) l.enum
    rw [show (l.enum.map Prod.snd) = l from enumFrom_map_snd l 0] at hmap
    exact hmap.symm
  · apply sortFold_pairwise_stable (fun p q : ℕ × Row => lexCmp specs p.2 q.2) Prod.fst l.enum
    · intro x y
      exact lexCmp_antisymm specs x.2 y.2
    · intro x hx y hy z hz
      exact htr x.2 (mem_enumFrom_facts l 0 x hx).2 y.2 (mem_enumFrom_facts l 0 y hy).2
        z.2 (mem_enumFrom_facts l 0 z hz).2
    · intro x hx
      exact hx
    · intro x hx
      simp at hx
    · intro x hx y hy
      simp at hx
    · exact enumFrom_pairwise_fst l 0
    · exact List.Pairwise.nil

/-- C5 amended witness: the spec's stability example — all sort-column
values numeric, so the comparator is transitive and the theorem applies
(the two `a:1` rows tie and keep input order). -/
theorem orderBy_lex_stable_witness :
    (([⟨"a", "asc"⟩] : List OrderSpec) ≠ []
      ∧ (∀ x ∈ ([[("a", Val.num 1), ("b", Val.num 1)], [("a", Val.num 1), ("b", Val.num 2)],
            [("a", Val.num 2), ("b", Val.num 0)]] : List Row),
          ∀ y ∈ ([[("a", Val.num 1), ("b", Val.num 1)], [("a", Val.num 1), ("b", Val.num 2)],
            [("a", Val.num 2), ("b", Val.num 0)]] : List Row),
          ∀ z ∈ ([[("a", Val.num 1), ("b", Val.num 1)], [("a", Val.num 1), ("b", Val.num 2)],
            [("a", Val.num 2), ("b", Val.num 0)]] : List Row),
          lexCmp [⟨"a", "asc"⟩] x y ≤ 0 → lexCmp [⟨"a", "asc"⟩] y z ≤ 0 →
            lexCmp [⟨"a", "asc"⟩] x z ≤ 0))
    ∧ ∃ il : List (ℕ × Row),
        il.map Prod.snd = orderStage [⟨"a", "asc"⟩]
          [[("a", Val.num 1), ("b", Val.num 1)], [("a", Val.num 1), ("b", Val.num 2)],
            [("a", Val.num 2), ("b", Val.num 0)]]
        ∧ il.Perm ([[("a", Val.num 1), ("b", Val.num 1)], [("a", Val.num 1), ("b", Val.num 2)],
            [("a", Val.num 2), ("b", Val.num 0)]] : List Row).enum
        ∧ il.Pairwise (fun p q => lexCmp [⟨"a", "asc"⟩] p.2 q.2 < 0
            ∨ (lexCmp [⟨"a", "asc"⟩] p.2 q.2 = 0 ∧ p.1 < q.1)) :=
  ⟨⟨by decide, by decide⟩,
    orderBy_lex_stable [⟨"a", "asc"⟩]
      [[("a", Val.num 1), ("b", Val.num 1)], [("a", Val.num 1), ("b", Val.num 2)],
        [("a", Val.num 2), ("b", Val.num 0)]] (by decide) (by decide)⟩

end ProofDevelopment
